import Mathlib

/-!
# Verification of the column-encoding layer of the opossum/hyrise storage engine

A shallow embedding of the column-encoding subsystem: dictionary encoding,
run-length encoding, the fixed-size byte-aligned (bit-packing) vector and its
decoder, the encoding dispatch, and the chunk-encode orchestrator, together
with proofs of the round-trip, invariant, and error-handling properties the
design documents state.

Columns are embedded as `List (Option T)`: one entry per row, `none` marking a
null.  Machine-word index values are embedded as `Nat` (index domains here are
bounded by column length, far below 2^32, so no wrap-around arithmetic is
involved).
-/

namespace Opossum

/-- The encoding-type tag of a column.  From `to_string(EncodingType)` in
`benchmark_main.cpp` and the `ChunkEncoder` header: the known variants are
`Invalid` ("Unencoded"), `Dictionary`, `DeprecatedDictionary` and
`RunLength`. -/
inductive EncodingType where
  | Invalid
  | Dictionary
  | DeprecatedDictionary
  | RunLength
deriving DecidableEq, Repr

/-- The closed set of supported primitive data types, as carried by the
`DataType` tag (`DataType::Int` etc. in the source). -/
inductive DataType where
  | Int
  | Long
  | Float
  | Double
  | String
deriving DecidableEq, Repr

/-- The zero-suppression (bit-packing) sub-scheme tag (`ZsType`); the source
in scope uses the fixed-size byte-aligned scheme. -/
inductive ZsType where
  | FixedSizeByteAligned
deriving DecidableEq, Repr

/-! ## Dictionary builder and dictionary encoder -/

/-- Modelled from the spec: the Dictionary Builder implementation is not under
`src/`.  §4.2 step 1 collects all distinct non-null values, sorted ascending,
deduplicated; this helper inserts one value into an already strictly-sorted
duplicate-free list, keeping it strictly sorted and duplicate-free. -/
def dictInsert {T : Type} [LinearOrder T] (x : T) : List T → List T
  | [] => [x]
  | y :: ys =>
    if x < y then x :: y :: ys
    else if x = y then y :: ys
    else y :: dictInsert x ys

/-- One dictionary-building step: a null contributes nothing, a value is
inserted into the dictionary built so far. -/
def dictStep {T : Type} [LinearOrder T] (d : List T) (o : Option T) : List T :=
  match o with
  | none => d
  | some v => dictInsert v d

/-- Modelled from the spec: §4.2 step 1 — collect all distinct non-null values
of the column into a strictly sorted, deduplicated dictionary. -/
def buildDictionary {T : Type} [LinearOrder T] (col : List (Option T)) : List T :=
  col.foldl dictStep []

/-- An encoded dictionary column: the sorted value dictionary plus one index
entry per source row (`dictionary.length` is the null sentinel). -/
structure DictionaryColumn (T : Type) where
  dictionary : List T
  indices : List Nat
deriving DecidableEq, Repr

/-- Modelled from the spec: §4.2 steps 2-3 — for each source position, look up
its value's position in the sorted dictionary (the binary search of the source
is embedded as `List.indexOf`, which agrees with it on sorted duplicate-free
lists), or assign the null sentinel `dictionary.length` for a null. -/
def encode_dictionary {T : Type} [LinearOrder T] (col : List (Option T)) :
    DictionaryColumn T :=
  let d := buildDictionary col
  { dictionary := d
    indices := col.map (fun o => match o with | none => d.length | some v => d.indexOf v) }

/-- Modelled from the spec: §4.4 — decoding a dictionary column resolves each
stored index through the dictionary; the sentinel (and anything past the end)
yields null. -/
def decode_dictionary {T : Type} (dc : DictionaryColumn T) : List (Option T) :=
  dc.indices.map (fun i => dc.dictionary[i]?)

/-- Modelled from the spec: §4.4 — random access `get(i)` on a dictionary
column resolves the `i`-th index through the dictionary (sentinel → null). -/
def dictGet {T : Type} (dc : DictionaryColumn T) (i : Nat) : Option T :=
  dc.dictionary[dc.indices.getD i dc.dictionary.length]?

/-! ## Run-length encoder -/

/-- Modelled from the spec: the Run-Length Encoder implementation is not under
`src/`.  §4.3 — scan the column; equal adjacent value/null-states extend the
current run, a change closes it.  A run is `(value-or-null, exclusive
cumulative end offset)`; `pos` is the offset of the first element still to be
scanned. -/
def rleGo {T : Type} [DecidableEq T] : List (Option T) → Nat → List (Option T × Nat)
  | [], _ => []
  | x :: xs, pos =>
    match rleGo xs (pos + 1) with
    | [] => [(x, pos + 1)]
    | (y, e) :: rest =>
      if x = y then (x, e) :: rest else (x, pos + 1) :: (y, e) :: rest

/-- Modelled from the spec: §4.3 `encode(raw_column) -> RunLengthColumn`. -/
def encode_run_length {T : Type} [DecidableEq T] (col : List (Option T)) :
    List (Option T × Nat) :=
  rleGo col 0

/-- Modelled from the spec: decoding a run-length column starting at offset
`pos` expands each run `(v, e)` to `e - pos` copies of `v`. -/
def rleDecodeFrom {T : Type} : List (Option T × Nat) → Nat → List (Option T)
  | [], _ => []
  | (v, e) :: rest, pos => List.replicate (e - pos) v ++ rleDecodeFrom rest e

/-- Modelled from the spec: §4.4 — sequential decode of a run-length column. -/
def decode_run_length {T : Type} (runs : List (Option T × Nat)) : List (Option T) :=
  rleDecodeFrom runs 0

/-- Modelled from the spec: §4.4 — random access `get(i)` on a run-length
column locates the run containing position `i` through the strictly increasing
end offsets (the first run whose exclusive end exceeds `i`). -/
def rleGet {T : Type} : List (Option T × Nat) → Nat → Option T
  | [], _ => none
  | (v, e) :: rest, i => if i < e then v else rleGet rest i

/-! ## Fixed-size byte-aligned vector and its decoder

From `fixed_size_byte_aligned_decoder.hpp`: the decoder holds a reference to a
`FixedSizeByteAlignedVector<UnsignedIntType>`, delivers `_on_get(i)` as
`_vector.data()[i]` (an unchecked subscript), `_on_size()` as
`_vector.size()`, and exposes an iterator over `data().cbegin() .. cend()`
whose `increment`/`dereference`/`equal` walk the underlying value storage. -/

/-- The backing storage of a `FixedSizeByteAlignedVector`: a dense sequence of
unsigned integer values, embedded as `List Nat`. -/
structure FixedSizeByteAlignedVector where
  data : List Nat
deriving DecidableEq, Repr

/-- `_on_size()` of `FixedSizeByteAlignedDecoder`: `_vector.size()`. -/
def fsba_on_size (v : FixedSizeByteAlignedVector) : Nat :=
  v.data.length

/-- `_on_get(i)` of `FixedSizeByteAlignedDecoder`: the unchecked subscript
`_vector.data()[i]`.  The source performs no bounds test; the total embedding
returns `0` on the (unreachable under the `i < size` precondition)
out-of-bounds branch. -/
def fsba_on_get (v : FixedSizeByteAlignedVector) (i : Nat) : Nat :=
  v.data.getD i 0

/-- `FixedSizeByteAlignedDecoder::Iterator`: a position inside the backing
value storage, embedded as the suffix of `data` that starts at the position
(`cend` is the empty suffix). -/
structure FsbaIterator where
  valueIt : List Nat
deriving DecidableEq, Repr

/-- `Iterator::increment`: `++_value_it`. -/
def FsbaIterator.increment (it : FsbaIterator) : FsbaIterator :=
  { valueIt := it.valueIt.tail }

/-- `Iterator::dereference`: `*_value_it` (unchecked; `0` on the unreachable
dereference of `cend`). -/
def FsbaIterator.dereference (it : FsbaIterator) : Nat :=
  it.valueIt.headD 0

/-- `Iterator::equal`: `_value_it == other._value_it`. -/
def FsbaIterator.equal (it other : FsbaIterator) : Bool :=
  it.valueIt == other.valueIt

/-- `_on_cbegin()`: an iterator at `_vector.data().cbegin()`. -/
def fsba_on_cbegin (v : FixedSizeByteAlignedVector) : FsbaIterator :=
  { valueIt := v.data }

/-- `_on_cend()`: an iterator at `_vector.data().cend()`. -/
def fsba_on_cend (_v : FixedSizeByteAlignedVector) : FsbaIterator :=
  { valueIt := [] }

/-- Walking the iterator: dereference then increment, until it compares equal
to the past-the-end iterator; collects the visited values in order. -/
def FsbaIterator.walk : FsbaIterator → List Nat
  | ⟨[]⟩ => []
  | ⟨x :: xs⟩ =>
    FsbaIterator.dereference ⟨x :: xs⟩ :: FsbaIterator.walk (FsbaIterator.increment ⟨x :: xs⟩)
termination_by it => it.valueIt.length
decreasing_by simp [FsbaIterator.increment]

/-! ## Bit-packing width selection (zero suppression) -/

/-- Modelled from the spec: the `BaseZeroSuppressionEncoder` subclasses are not
under `src/` (only the abstract base).  §4.1/§3: the supported uniform widths
of the byte-aligned implementations, in bits. -/
def supported_widths : List Nat := [8, 16, 32]

/-- Modelled from the spec: §3 — the chosen width is the minimum supported `w`
satisfying `2^w - 1 ≥ max(values)`; `none` when the maximum exceeds every
supported width (the fail-fast capacity violation of §7). -/
def choose_width (maxValue : Nat) : Option Nat :=
  supported_widths.find? (fun w => maxValue ≤ 2 ^ w - 1)

/-- The maximum of a list of unsigned integers (`0` for the empty list). -/
def listMax (values : List Nat) : Nat :=
  values.foldr max 0

/-- Modelled from the spec: §4.1 `build(values) -> Vector` — choose the
narrowest supported width holding every value, or fail fast; the built vector
carries the fixed width and the packed values. -/
def zs_encode (values : List Nat) : Option (Nat × List Nat) :=
  match choose_width (listMax values) with
  | none => none
  | some w => (w, values)

/-! ## Encoding dispatch -/

/-- The statically typed decoder a successful dispatch hands to its callback:
one concrete decoder per (encoding type × data type) combination. -/
inductive DecoderTag where
  | dictionaryDec (dt : DataType)
  | deprecatedDictionaryDec (dt : DataType)
  | runLengthDec (dt : DataType)
deriving DecidableEq, Repr

/-- Modelled from the spec: the `resolve_encoded_column_type` implementation is
not under `src/`.  §4.5 — resolve the runtime encoding-type and data-type tags
to the single concrete decoder, or report an unsupported-combination error when
the encoding tag is not one of the known variants (the mechanism itself is
type-generic over the supported data types). -/
def resolve_encoded_column_type (encoding : EncodingType) (dt : DataType) :
    Except String DecoderTag :=
  match encoding with
  | EncodingType.Dictionary => Except.ok (DecoderTag.dictionaryDec dt)
  | EncodingType.DeprecatedDictionary => Except.ok (DecoderTag.deprecatedDictionaryDec dt)
  | EncodingType.RunLength => Except.ok (DecoderTag.runLengthDec dt)
  | EncodingType.Invalid => Except.error "unsupported encoding type"

/-! ## Chunk encode orchestrator -/

/-- `ColumnEncodingSpec` from `chunk_encoder.hpp`: an encoding-type tag plus an
optional zero-suppression sub-scheme tag. -/
structure ColumnEncodingSpec where
  encoding_type : EncodingType
  zs_type : Option ZsType := none
deriving DecidableEq, Repr

/-- One column of a chunk: either still a raw `ValueColumn<T>` or one of the
encoded representations. -/
inductive AnyColumn (T : Type) where
  | value (values : List (Option T))
  | dictionary (dc : DictionaryColumn T)
  | runLength (runs : List (Option T × Nat))
deriving DecidableEq, Repr

/-- Modelled from the spec: applies the encoder selected by an encoding-type
tag to a raw column's values (§4.6; the legacy deprecated-dictionary variant
follows the identical contract, §4.2). -/
def apply_encoder {T : Type} [LinearOrder T] (et : EncodingType)
    (values : List (Option T)) : AnyColumn T :=
  match et with
  | EncodingType.Dictionary => AnyColumn.dictionary (encode_dictionary values)
  | EncodingType.DeprecatedDictionary => AnyColumn.dictionary (encode_dictionary values)
  | EncodingType.RunLength => AnyColumn.runLength (encode_run_length values)
  | EncodingType.Invalid => AnyColumn.value values

/-- Modelled from the spec: one column step of `ChunkEncoder::encode_chunk`
(§4.6; implementation not under `src/`).  `EncodingType::Invalid` leaves the
column untouched; any other tag requires the column to be a raw
`ValueColumn<T>` ("All columns of the chunk need to be of type
`ValueColumn<T>`") and replaces it with the encoder's output; a column that is
already encoded is a precondition violation reported as an error. -/
def encode_one_column {T : Type} [LinearOrder T] (col : AnyColumn T)
    (s : ColumnEncodingSpec) : Except String (AnyColumn T) :=
  match s.encoding_type with
  | EncodingType.Invalid => Except.ok col
  | et =>
    match col with
    | AnyColumn.value values => Except.ok (apply_encoder et values)
    | _ => Except.error "precondition violation: column is already encoded"

/-- Modelled from the spec: `ChunkEncoder::encode_chunk` (§4.6; implementation
not under `src/`).  Walks the chunk's columns with their per-column encoding
specifications; a spec/column count mismatch or any per-column precondition
violation aborts with an error. -/
def encode_chunk {T : Type} [LinearOrder T] :
    List (AnyColumn T) → List ColumnEncodingSpec → Except String (List (AnyColumn T))
  | [], [] => Except.ok []
  | col :: cols, s :: specs =>
    match encode_one_column col s with
    | Except.error msg => Except.error msg
    | Except.ok col₂ =>
      match encode_chunk cols specs with
      | Except.error msg => Except.error msg
      | Except.ok cols₂ => Except.ok (col₂ :: cols₂)
  | _, _ => Except.error "precondition violation: chunk and encoding spec sizes differ"

/-- Whether an orchestrator call succeeded (`Except.ok`). -/
def exceptOk {α : Type} : Except String α → Bool
  | Except.ok _ => true
  | Except.error _ => false

/-! ## Lemmas on the dictionary builder -/

/-- Membership after `dictInsert`: exactly the inserted value plus the old
members. -/
theorem mem_dictInsert {T : Type} [LinearOrder T] (a x : T) :
    ∀ (l : List T), a ∈ dictInsert x l ↔ a = x ∨ a ∈ l
  | [] => by simp [dictInsert]
  | y :: ys => by
    simp only [dictInsert]
    split_ifs with h1 h2
    · simp [List.mem_cons]
    · subst h2
      simp only [List.mem_cons]
      tauto
    · rw [List.mem_cons, mem_dictInsert a x ys, List.mem_cons]
      tauto

/-- `dictInsert` preserves strict sortedness. -/
theorem pairwise_dictInsert {T : Type} [LinearOrder T] (x : T) :
    ∀ (l : List T), l.Pairwise (· < ·) → (dictInsert x l).Pairwise (· < ·)
  | [], _ => by simp [dictInsert]
  | y :: ys, h => by
    rw [List.pairwise_cons] at h
    obtain ⟨hy, hys⟩ := h
    simp only [dictInsert]
    split_ifs with h1 h2
    · refine List.pairwise_cons.2 ⟨fun z hz => ?_, List.pairwise_cons.2 ⟨hy, hys⟩⟩
      rcases List.mem_cons.1 hz with rfl | hz
      · exact h1
      · exact lt_trans h1 (hy z hz)
    · exact List.pairwise_cons.2 ⟨hy, hys⟩
    · refine List.pairwise_cons.2 ⟨fun z hz => ?_, pairwise_dictInsert x ys hys⟩
      rcases (mem_dictInsert z x ys).1 hz with rfl | hz
      · exact lt_of_le_of_ne (le_of_not_lt h1) (Ne.symm h2)
      · exact hy z hz

/-- Membership in a dictionary fold: the starting accumulator's members plus
the non-null values of the scanned column. -/
theorem mem_foldl_dictStep {T : Type} [LinearOrder T] (a : T) :
    ∀ (col : List (Option T)) (acc : List T),
      a ∈ col.foldl dictStep acc ↔ a ∈ acc ∨ some a ∈ col
  | [], acc => by simp
  | none :: rest, acc => by
    rw [List.foldl_cons]
    show a ∈ rest.foldl dictStep acc ↔ _
    rw [mem_foldl_dictStep a rest acc, List.mem_cons]
    tauto
  | some v :: rest, acc => by
    rw [List.foldl_cons]
    show a ∈ rest.foldl dictStep (dictInsert v acc) ↔ _
    rw [mem_foldl_dictStep a rest (dictInsert v acc), mem_dictInsert, List.mem_cons,
      Option.some_inj]
    tauto

/-- Strict sortedness of a dictionary fold. -/
theorem pairwise_foldl_dictStep {T : Type} [LinearOrder T] :
    ∀ (col : List (Option T)) (acc : List T),
      acc.Pairwise (· < ·) → (col.foldl dictStep acc).Pairwise (· < ·)
  | [], _acc, h => h
  | none :: rest, acc, h => pairwise_foldl_dictStep rest acc h
  | some v :: rest, acc, h => pairwise_foldl_dictStep rest (dictInsert v acc) (pairwise_dictInsert v acc h)

/-- A value is in the built dictionary exactly when it occurs (non-null) in
the source column. -/
theorem mem_buildDictionary {T : Type} [LinearOrder T] (a : T) (col : List (Option T)) :
    a ∈ buildDictionary col ↔ some a ∈ col := by
  rw [buildDictionary, mem_foldl_dictStep]
  simp

/-- The built dictionary is strictly sorted ascending. -/
theorem buildDictionary_pairwise {T : Type} [LinearOrder T] (col : List (Option T)) :
    (buildDictionary col).Pairwise (· < ·) :=
  pairwise_foldl_dictStep col [] List.Pairwise.nil

/-- The built dictionary has no duplicates. -/
theorem buildDictionary_nodup {T : Type} [LinearOrder T] (col : List (Option T)) :
    (buildDictionary col).Nodup :=
  (buildDictionary_pairwise col).imp ne_of_lt

/-- Round trip of the dictionary encoder: decoding an encoded column
reproduces the source column, nulls included. -/
theorem dict_round_trip {T : Type} [LinearOrder T] (col : List (Option T)) :
    decode_dictionary (encode_dictionary col) = col := by
  rw [decode_dictionary, encode_dictionary]
  simp only [List.map_map]
  conv_rhs => rw [← List.map_id col]
  refine List.map_congr_left fun o ho => ?_
  cases o with
  | none => simp
  | some v =>
    simp only [Function.comp_apply, id_eq]
    have hv : List.indexOf v (buildDictionary col) < (buildDictionary col).length :=
      List.indexOf_lt_length.2 ((mem_buildDictionary v col).2 ho)
    rw [List.getElem?_eq_getElem hv]
    exact congrArg some (List.getElem_indexOf hv)

/-- Every index entry of an encoded dictionary column is a valid dictionary
position or the null sentinel `dictionary.length`. -/
theorem encode_dictionary_index_bound {T : Type} [LinearOrder T] (col : List (Option T)) :
    ∀ ix ∈ (encode_dictionary col).indices,
      ix < (encode_dictionary col).dictionary.length ∨
        ix = (encode_dictionary col).dictionary.length := by
  intro ix hix
  rw [encode_dictionary] at hix ⊢
  simp only [List.mem_map] at hix
  obtain ⟨o, ho, rfl⟩ := hix
  cases o with
  | none => exact Or.inr rfl
  | some v =>
    exact Or.inl (List.indexOf_lt_length.2 ((mem_buildDictionary v col).2 ho))

/-! ## Lemmas on the run-length encoder -/

/-- The run end offsets produced by `rleGo` starting at `pos` form a strictly
increasing chain above `pos`. -/
theorem rleGo_ends_chain {T : Type} [DecidableEq T] :
    ∀ (col : List (Option T)) (pos : Nat),
      List.Chain (· < ·) pos ((rleGo col pos).map Prod.snd)
  | [], pos => by simp [rleGo]
  | x :: xs, pos => by
    have ih := rleGo_ends_chain xs (pos + 1)
    cases h : rleGo xs (pos + 1) with
    | nil => simp [rleGo, h, List.chain_cons]
    | cons hd tl =>
      obtain ⟨y, e⟩ := hd
      rw [h, List.map_cons, List.chain_cons] at ih
      obtain ⟨h1, h2⟩ := ih
      simp only [rleGo, h]
      split_ifs with hxy
      · exact List.chain_cons.2 ⟨lt_trans (Nat.lt_succ_self pos) h1, h2⟩
      · exact List.chain_cons.2 ⟨Nat.lt_succ_self pos, List.chain_cons.2 ⟨h1, h2⟩⟩

/-- The last run end offset produced by `rleGo` starting at `pos` is exactly
`pos` plus the number of scanned elements. -/
theorem rleGo_last_end {T : Type} [DecidableEq T] :
    ∀ (col : List (Option T)) (pos : Nat),
      ((rleGo col pos).map Prod.snd).getLastD pos = pos + col.length
  | [], pos => by simp [rleGo]
  | x :: xs, pos => by
    have ih := rleGo_last_end xs (pos + 1)
    cases h : rleGo xs (pos + 1) with
    | nil =>
      rw [h] at ih
      simp only [List.map_nil, List.getLastD_nil] at ih
      simp only [rleGo, h, List.map_cons, List.map_nil, List.getLastD_cons, List.getLastD_nil,
        List.length_cons]
      omega
    | cons hd tl =>
      obtain ⟨y, e⟩ := hd
      rw [h] at ih
      simp only [List.map_cons, List.getLastD_cons] at ih
      simp only [rleGo, h]
      split_ifs with hxy <;>
        simp only [List.map_cons, List.getLastD_cons, List.length_cons] <;> omega

/-- No two adjacent runs produced by `rleGo` share the same value/null-state:
the runs are maximal. -/
theorem rleGo_values_chain {T : Type} [DecidableEq T] :
    ∀ (col : List (Option T)) (pos : Nat),
      ((rleGo col pos).map Prod.fst).Chain' (· ≠ ·)
  | [], pos => by simp [rleGo]
  | x :: xs, pos => by
    have ih := rleGo_values_chain xs (pos + 1)
    cases h : rleGo xs (pos + 1) with
    | nil => simp [rleGo, h]
    | cons hd tl =>
      obtain ⟨y, e⟩ := hd
      rw [h, List.map_cons] at ih
      simp only [rleGo, h]
      split_ifs with hxy
      · subst hxy
        exact ih
      · exact List.chain'_cons.2 ⟨hxy, ih⟩

/-- Round trip of the run-length encoder from an arbitrary start offset. -/
theorem rle_round_trip_from {T : Type} [DecidableEq T] :
    ∀ (col : List (Option T)) (pos : Nat),
      rleDecodeFrom (rleGo col pos) pos = col
  | [], _pos => rfl
  | x :: xs, pos => by
    have ih := rle_round_trip_from xs (pos + 1)
    have hchain := rleGo_ends_chain xs (pos + 1)
    cases h : rleGo xs (pos + 1) with
    | nil =>
      rw [h] at ih
      simp only [rleDecodeFrom] at ih
      have hrep : pos + 1 - pos = 1 := by omega
      simp [rleGo, h, rleDecodeFrom, hrep, ← ih]
    | cons hd tl =>
      obtain ⟨y, e⟩ := hd
      rw [h] at hchain
      simp only [List.map_cons, List.chain_cons] at hchain
      obtain ⟨hpe, _⟩ := hchain
      simp only [rleGo, h]
      split_ifs with hxy
      · subst hxy
        rw [h] at ih
        simp only [rleDecodeFrom] at ih ⊢
        have he : e - pos = (e - (pos + 1)) + 1 := by omega
        rw [he, List.replicate_succ, List.cons_append, ih]
      · rw [h] at ih
        show List.replicate (pos + 1 - pos) x ++ rleDecodeFrom ((y, e) :: tl) (pos + 1) = x :: xs
        rw [ih]
        have hrep : pos + 1 - pos = 1 := by omega
        rw [hrep]
        rfl

/-- Round trip of the run-length encoder: decoding an encoded column
reproduces the source column, nulls included. -/
theorem rle_round_trip {T : Type} [DecidableEq T] (col : List (Option T)) :
    decode_run_length (encode_run_length col) = col :=
  rle_round_trip_from col 0

/-- Random access into a run list agrees with the sequential expansion, for
any run list with strictly increasing end offsets and any position before the
last end offset. -/
theorem rleGet_decodeFrom {T : Type} :
    ∀ (runs : List (Option T × Nat)) (pos i : Nat),
      List.Chain (· < ·) pos (runs.map Prod.snd) → pos ≤ i →
      i < (runs.map Prod.snd).getLastD pos →
      (rleDecodeFrom runs pos)[i - pos]? = some (rleGet runs i)
  | [], pos, i => by
    intro _ hle hlt
    simp only [List.map_nil, List.getLastD_nil] at hlt
    exact absurd hlt (by omega)
  | (v, e) :: rest, pos, i => by
    intro hchain hle hlt
    simp only [List.map_cons, List.chain_cons] at hchain
    obtain ⟨hpe, hchain'⟩ := hchain
    simp only [List.map_cons, List.getLastD_cons] at hlt
    simp only [rleDecodeFrom, rleGet]
    by_cases hie : i < e
    · rw [if_pos hie]
      rw [List.getElem?_append_left (by simp only [List.length_replicate]; omega)]
      exact List.getElem?_replicate_of_lt (by omega)
    · rw [if_neg hie]
      rw [List.getElem?_append_right (by simp only [List.length_replicate]; omega)]
      simp only [List.length_replicate]
      have hsub : i - pos - (e - pos) = i - e := by omega
      rw [hsub]
      exact rleGet_decodeFrom rest e i hchain' (by omega) hlt

/-- For every in-range position, the sequentially decoded run-length column
and random-access `rleGet` agree on the original column's element. -/
theorem rleGet_agrees {T : Type} [DecidableEq T] (col : List (Option T)) (i : Nat)
    (h : i < col.length) :
    col[i]? = some (rleGet (encode_run_length col) i) := by
  have hchain := rleGo_ends_chain col 0
  have hlast := rleGo_last_end col 0
  have := rleGet_decodeFrom (rleGo col 0) 0 i hchain (Nat.zero_le i)
    (by rw [hlast]; omega)
  rw [rle_round_trip_from col 0, Nat.sub_zero] at this
  exact this

/-- For every in-range position, the sequentially decoded dictionary column
and random-access `dictGet` agree. -/
theorem dictGet_agrees {T : Type} (dc : DictionaryColumn T) (i : Nat)
    (h : i < dc.indices.length) :
    (decode_dictionary dc)[i]? = some (dictGet dc i) := by
  rw [decode_dictionary, dictGet, List.getElem?_map, List.getElem?_eq_getElem h]
  rw [List.getD_eq_getElem?_getD, List.getElem?_eq_getElem h]
  rfl

/-- The size of the built dictionary is the number of distinct non-null values
of the source column. -/
theorem buildDictionary_length {T : Type} [LinearOrder T] (col : List (Option T)) :
    (buildDictionary col).length = (col.filterMap id).dedup.length := by
  have h1 : (buildDictionary col).Nodup := buildDictionary_nodup col
  have h2 : (col.filterMap id).dedup.Nodup := List.nodup_dedup _
  have hmem : ∀ a, a ∈ buildDictionary col ↔ a ∈ (col.filterMap id).dedup := by
    intro a
    rw [mem_buildDictionary, List.mem_dedup, List.mem_filterMap]
    constructor
    · intro h
      exact ⟨some a, h, rfl⟩
    · rintro ⟨x, hx, hid⟩
      rw [id_eq] at hid
      subst hid
      exact hx
  exact ((List.perm_ext_iff_of_nodup h1 h2).2 hmem).length_eq

/-- An all-null column builds an empty dictionary. -/
theorem buildDictionary_all_null {T : Type} [LinearOrder T] (col : List (Option T))
    (h : ∀ o ∈ col, o = none) : buildDictionary col = [] := by
  rw [List.eq_nil_iff_forall_not_mem]
  intro a ha
  have hmem := (mem_buildDictionary a col).1 ha
  have := h _ hmem
  simp at this

/-- A column whose only non-null value is `v` (occurring at least once) builds
the singleton dictionary `[v]`. -/
theorem buildDictionary_single {T : Type} [LinearOrder T] (col : List (Option T)) (v : T)
    (hv : some v ∈ col) (hall : ∀ o ∈ col, o = none ∨ o = some v) :
    buildDictionary col = [v] := by
  rw [← List.perm_singleton]
  refine (List.perm_ext_iff_of_nodup (buildDictionary_nodup col) (List.nodup_singleton v)).2 ?_
  intro a
  rw [mem_buildDictionary, List.mem_singleton]
  constructor
  · intro h
    rcases hall _ h with h' | h' <;> simp_all
  · rintro rfl
    exact hv

/-! ## Lemmas on the width selection -/

/-- Closed form of the width selection over the supported widths 8/16/32. -/
theorem choose_width_eq (m : Nat) :
    choose_width m =
      if m ≤ 255 then some 8
      else if m ≤ 65535 then some 16
      else if m ≤ 4294967295 then some 32
      else none := by
  rw [choose_width, supported_widths]
  by_cases h8 : m ≤ 255
  · rw [List.find?_cons_of_pos _ (by simpa using h8), if_pos h8]
  · rw [List.find?_cons_of_neg _ (by simpa using h8), if_neg h8]
    by_cases h16 : m ≤ 65535
    · rw [List.find?_cons_of_pos _ (by simpa using h16), if_pos h16]
    · rw [List.find?_cons_of_neg _ (by simpa using h16), if_neg h16]
      by_cases h32 : m ≤ 4294967295
      · rw [List.find?_cons_of_pos _ (by simpa using h32), if_pos h32]
      · rw [List.find?_cons_of_neg _ (by simpa using h32), if_neg h32, List.find?_nil]

/-! ## Lemmas on the chunk encode orchestrator -/

/-- Re-encoding a column that a previous successful encode call (with a
non-`Invalid` tag) produced reports the precondition-violation error. -/
theorem encode_one_column_twice {T : Type} [LinearOrder T] (col col₂ : AnyColumn T)
    (s : ColumnEncodingSpec) (hs : s.encoding_type ≠ EncodingType.Invalid)
    (h : encode_one_column col s = Except.ok col₂) :
    encode_one_column col₂ s =
      Except.error "precondition violation: column is already encoded" := by
  cases het : s.encoding_type
  case Invalid => exact absurd het hs
  all_goals
    simp only [encode_one_column, het] at h ⊢
  all_goals
    cases col with
    | value values =>
      rw [Except.ok.injEq] at h
      subst h
      rfl
    | dictionary dc => exact absurd h (by simp)
    | runLength runs => exact absurd h (by simp)

/-- Re-running `encode_chunk` on the output of a successful call whose
specification actually encoded at least one column fails. -/
theorem encode_chunk_twice {T : Type} [LinearOrder T] :
    ∀ (chunk : List (AnyColumn T)) (spec : List ColumnEncodingSpec)
      (chunk₂ : List (AnyColumn T)),
      encode_chunk chunk spec = Except.ok chunk₂ →
      (∃ s ∈ spec, s.encoding_type ≠ EncodingType.Invalid) →
      exceptOk (encode_chunk chunk₂ spec) = false
  | [], [], chunk₂, _h, hex => by
    obtain ⟨s, hs, _⟩ := hex
    exact absurd hs (List.not_mem_nil s)
  | [], _s :: _ss, _chunk₂, h, _hex => Except.noConfusion h
  | _c :: _cs, [], _chunk₂, h, _hex => Except.noConfusion h
  | c :: cs, s :: ss, chunk₂, h, hex => by
    rw [encode_chunk] at h
    cases h1 : encode_one_column c s with
    | error msg => rw [h1] at h; exact absurd h (by simp)
    | ok c₂ =>
      rw [h1] at h
      cases h2 : encode_chunk cs ss with
      | error msg => rw [h2] at h; exact absurd h (by simp)
      | ok cs₂ =>
        rw [h2] at h
        simp only [Except.ok.injEq] at h
        subst h
        by_cases hsi : s.encoding_type = EncodingType.Invalid
        · have hc : c₂ = c := by
            simp only [encode_one_column, hsi] at h1
            exact (Except.ok.inj h1).symm
          subst hc
          have hss : ∃ s' ∈ ss, s'.encoding_type ≠ EncodingType.Invalid := by
            obtain ⟨s', hs', hne⟩ := hex
            rcases List.mem_cons.1 hs' with rfl | hs'
            · exact absurd hsi hne
            · exact ⟨s', hs', hne⟩
          have ih := encode_chunk_twice cs ss cs₂ h2 hss
          rw [encode_chunk]
          simp only [encode_one_column, hsi]
          cases h3 : encode_chunk cs₂ ss with
          | error msg => rfl
          | ok out => rw [h3] at ih; exact absurd ih (by simp [exceptOk])
        · have herr := encode_one_column_twice c c₂ s hsi h1
          rw [encode_chunk, herr]
          rfl

/-! ## Lemmas on the fixed-size byte-aligned decoder -/

/-- Walking the iterator from a suffix yields exactly that suffix. -/
theorem fsbaIterator_walk_eq {l : List Nat} :
    FsbaIterator.walk ⟨l⟩ = l := by
  induction l with
  | nil => rw [FsbaIterator.walk]
  | cons x xs ih =>
    rw [FsbaIterator.walk]
    simp only [FsbaIterator.dereference, FsbaIterator.increment, List.headD_cons,
      List.tail_cons]
    rw [ih]

/-- Repeated random access over all valid positions reproduces the backing
data. -/
theorem fsba_map_get_range (v : FixedSizeByteAlignedVector) :
    (List.range (fsba_on_size v)).map (fsba_on_get v) = v.data := by
  obtain ⟨l⟩ := v
  show (List.range l.length).map (fun i => l.getD i 0) = l
  induction l with
  | nil => rfl
  | cons x xs ih =>
    rw [List.length_cons, List.range_succ_eq_map, List.map_cons, List.map_map]
    simp only [List.getD_cons_zero, Function.comp_def, List.getD_cons_succ]
    rw [ih]

/-! ## The claims -/

/-- Claim C1: for every supported data type `T` (embedded: every linearly
ordered value type) and every finite sequence of `T`-or-null values, decoding
the column produced by the dictionary encoder, and decoding the column
produced by the run-length encoder, each reproduce the original sequence
exactly, element for element, including which positions are null. -/
theorem C1_round_trip (T : Type) [LinearOrder T] (col : List (Option T)) :
    decode_dictionary (encode_dictionary col) = col ∧
      decode_run_length (encode_run_length col) = col :=
  ⟨dict_round_trip col, rle_round_trip col⟩

/-- Claim C2: for every encoded column of length `N` and every `i < N`, the
element produced at position `i` by the sequential iterable equals the result
of random-access `get(i)`; in particular, walking the fixed-size byte-aligned
vector's iterator from begin to end yields exactly the same value sequence as
calling `get` on `0, 1, ..., size()-1`. -/
theorem C2_sequential_equals_random_access (T : Type) [LinearOrder T]
    (v : FixedSizeByteAlignedVector) (col : List (Option T)) (i : Nat)
    (h : i < col.length) :
    FsbaIterator.walk (fsba_on_cbegin v) =
        (List.range (fsba_on_size v)).map (fsba_on_get v) ∧
      (decode_dictionary (encode_dictionary col))[i]? =
        some (dictGet (encode_dictionary col) i) ∧
      (decode_run_length (encode_run_length col))[i]? =
        some (rleGet (encode_run_length col) i) := by
  refine ⟨?_, ?_, ?_⟩
  · rw [fsba_on_cbegin, fsbaIterator_walk_eq, fsba_map_get_range]
  · exact dictGet_agrees _ i (by simpa [encode_dictionary] using h)
  · rw [rle_round_trip]
    exact rleGet_agrees col i h

/-- Witness for C2 at a concrete vector, column and position. -/
theorem C2_sequential_equals_random_access_witness :
    FsbaIterator.walk (fsba_on_cbegin ⟨[4, 5]⟩) =
        (List.range (fsba_on_size ⟨[4, 5]⟩)).map (fsba_on_get ⟨[4, 5]⟩) ∧
      (decode_dictionary (encode_dictionary [some (2 : Int), none]))[1]? =
        some (dictGet (encode_dictionary [some (2 : Int), none]) 1) ∧
      (decode_run_length (encode_run_length [some (2 : Int), none]))[1]? =
        some (rleGet (encode_run_length [some (2 : Int), none]) 1) :=
  C2_sequential_equals_random_access Int ⟨[4, 5]⟩ [some 2, none] 1 (by decide)

/-- Claim C3: the dictionary produced by the Dictionary Encoder is strictly
sorted ascending, contains no duplicate values, and its size equals the number
of distinct non-null values of the input column. -/
theorem C3_dictionary_invariants (T : Type) [LinearOrder T] (col : List (Option T)) :
    (encode_dictionary col).dictionary.Pairwise (· < ·) ∧
      (encode_dictionary col).dictionary.Nodup ∧
      (encode_dictionary col).dictionary.length = (col.filterMap id).dedup.length :=
  ⟨buildDictionary_pairwise col, buildDictionary_nodup col, buildDictionary_length col⟩

/-- Claim C4: the index sequence has one entry per source position, each a
valid dictionary position (`< dictionary.length`) or the null sentinel
(`= dictionary.length`); an all-null column yields an empty dictionary with
every index the sentinel `0`; a column whose single distinct value is `v`
yields a dictionary of size 1. -/
theorem C4_index_sequence (T : Type) [LinearOrder T] (col : List (Option T)) (v : T) :
    (encode_dictionary col).indices.length = col.length ∧
      (∀ ix ∈ (encode_dictionary col).indices,
        ix < (encode_dictionary col).dictionary.length ∨
          ix = (encode_dictionary col).dictionary.length) ∧
      ((∀ o ∈ col, o = none) →
        (encode_dictionary col).dictionary = [] ∧
          ∀ ix ∈ (encode_dictionary col).indices, ix = 0) ∧
      (some v ∈ col → (∀ o ∈ col, o = none ∨ o = some v) →
        (encode_dictionary col).dictionary.length = 1) := by
  refine ⟨List.length_map _ _, encode_dictionary_index_bound col, ?_, ?_⟩
  · intro hnull
    have hd : buildDictionary col = [] := buildDictionary_all_null col hnull
    refine ⟨hd, ?_⟩
    intro ix hix
    simp only [encode_dictionary, List.mem_map] at hix
    obtain ⟨o, ho, rfl⟩ := hix
    rw [hnull o ho]
    show (buildDictionary col).length = 0
    rw [hd]
    rfl
  · intro hv hall
    show (buildDictionary col).length = 1
    rw [buildDictionary_single col v hv hall]
    rfl

/-- Witness for C4 at concrete columns: a single-distinct-value column gets a
dictionary of size 1, an all-null column an empty dictionary. -/
theorem C4_index_sequence_witness :
    (encode_dictionary [some (3 : Int), none, some 3]).dictionary.length = 1 ∧
      (encode_dictionary ([none, none] : List (Option Int))).dictionary = [] :=
  ⟨(C4_index_sequence Int [some 3, none, some 3] 3).2.2.2 (by decide) (by decide),
   ((C4_index_sequence Int [none, none] 3).2.2.1 (by decide)).1⟩

/-- Claim C5: a successful vector build chooses the smallest supported width
`w` with `2^w - 1 ≥ max(values)`; when the maximum exceeds every supported
width, the build reports an error (`none`) rather than producing a vector. -/
theorem C5_minimal_width (values : List Nat) (w : Nat) (data : List Nat) :
    (zs_encode values = some (w, data) →
      w ∈ supported_widths ∧ listMax values ≤ 2 ^ w - 1 ∧
        ∀ w' ∈ supported_widths, listMax values ≤ 2 ^ w' - 1 → w ≤ w') ∧
      ((∀ w' ∈ supported_widths, 2 ^ w' - 1 < listMax values) → zs_encode values = none) := by
  constructor
  · intro h
    rw [zs_encode] at h
    cases hcw : choose_width (listMax values) with
    | none => rw [hcw] at h; exact absurd h (by simp)
    | some w₀ =>
      rw [hcw] at h
      simp only [Option.some.injEq, Prod.mk.injEq] at h
      obtain ⟨rfl, rfl⟩ := h
      rw [choose_width_eq] at hcw
      split_ifs at hcw with h1 h2 h3 <;>
        simp only [Option.some.injEq] at hcw <;> subst hcw <;>
        refine ⟨by simp [supported_widths], by norm_num; omega, ?_⟩ <;>
        intro w' hw' hle <;>
        simp only [supported_widths, List.mem_cons, List.not_mem_nil, or_false] at hw' <;>
        rcases hw' with rfl | rfl | rfl <;> norm_num at hle ⊢ <;> omega
  · intro hall
    have h32 := hall 32 (by simp [supported_widths])
    norm_num at h32
    rw [zs_encode, choose_width_eq]
    rw [if_neg (by omega), if_neg (by omega), if_neg (by omega)]

/-- Witness for C5: values `{0, 1, 2}` plus the null sentinel `3` choose the
8-bit width, minimal among the supported widths; a value past `2^32 - 1`
makes the build fail. -/
theorem C5_minimal_width_witness :
    (8 ∈ supported_widths ∧ listMax [0, 1, 2, 3] ≤ 2 ^ 8 - 1 ∧
      ∀ w' ∈ supported_widths, listMax [0, 1, 2, 3] ≤ 2 ^ w' - 1 → 8 ≤ w') ∧
      zs_encode [0, 1, 2, 4294967296] = none :=
  ⟨(C5_minimal_width [0, 1, 2, 3] 8 [0, 1, 2, 3]).1 rfl,
   (C5_minimal_width [0, 1, 2, 4294967296] 0 []).2 (by decide)⟩

/-- Claim C6: the run end-offsets of a run-length column form a strictly
increasing sequence ending exactly at `N` (so the runs partition `[0, N)` with
no gaps or overlaps), and no two adjacent runs share the same
value/null-state. -/
theorem C6_run_length_invariants (T : Type) [DecidableEq T] (col : List (Option T)) :
    List.Chain (· < ·) 0 ((encode_run_length col).map Prod.snd) ∧
      ((encode_run_length col).map Prod.snd).getLastD 0 = col.length ∧
      ((encode_run_length col).map Prod.fst).Chain' (· ≠ ·) :=
  ⟨rleGo_ends_chain col 0, by simpa using rleGo_last_end col 0, rleGo_values_chain col 0⟩

/-- Claim C7: `encode_chunk` requires every column selected for encoding to be
raw; invoking it a second time on the chunk produced by a successful call
whose specification encoded at least one column reports a
precondition-violation error instead of silently handling the input. -/
theorem C7_encode_chunk_precondition (T : Type) [LinearOrder T]
    (chunk chunk₂ : List (AnyColumn T)) (spec : List ColumnEncodingSpec)
    (h : encode_chunk chunk spec = Except.ok chunk₂)
    (hs : ∃ s ∈ spec, s.encoding_type ≠ EncodingType.Invalid) :
    exceptOk (encode_chunk chunk₂ spec) = false :=
  encode_chunk_twice chunk spec chunk₂ h hs

/-- Witness for C7: encoding a one-column chunk twice with a dictionary
specification; the second call fails. -/
theorem C7_encode_chunk_precondition_witness :
    exceptOk (encode_chunk [AnyColumn.dictionary ⟨[(1 : Int)], [0]⟩]
      [⟨EncodingType.Dictionary, none⟩]) = false :=
  C7_encode_chunk_precondition Int [AnyColumn.value [some 1]]
    [AnyColumn.dictionary ⟨[(1 : Int)], [0]⟩] [⟨EncodingType.Dictionary, none⟩]
    rfl (by decide)

/-- Claim C8: dispatch with an encoding-type tag not among the known variants
reports an unsupported-combination error and never completes as a silent
no-op; a decoder is produced exactly for the known variants
`{Dictionary, RunLength, DeprecatedDictionary}`. -/
theorem C8_dispatch_unknown_tag (e : EncodingType) (dt : DataType) :
    resolve_encoded_column_type EncodingType.Invalid dt =
        Except.error "unsupported encoding type" ∧
      ((∃ d, resolve_encoded_column_type e dt = Except.ok d) ↔
        (e = EncodingType.Dictionary ∨ e = EncodingType.RunLength ∨
          e = EncodingType.DeprecatedDictionary)) := by
  refine ⟨rfl, ?_⟩
  cases e <;> simp [resolve_encoded_column_type]

/-- Witness for C8 at a concrete tag and data type. -/
theorem C8_dispatch_unknown_tag_witness :
    resolve_encoded_column_type EncodingType.Invalid DataType.Int =
        Except.error "unsupported encoding type" ∧
      (EncodingType.Dictionary = EncodingType.Dictionary ∨
        EncodingType.Dictionary = EncodingType.RunLength ∨
        EncodingType.Dictionary = EncodingType.DeprecatedDictionary) :=
  ⟨(C8_dispatch_unknown_tag EncodingType.Dictionary DataType.Int).1,
   (C8_dispatch_unknown_tag EncodingType.Dictionary DataType.Int).2.1
     ⟨DecoderTag.dictionaryDec DataType.Int, rfl⟩⟩

/-- Claim C9: encoding the decoded output of an encoded column again with the
same encoder and settings produces a column with identical structure
(identical dictionary and index sequence; identical runs and end offsets). -/
theorem C9_reencoding_idempotent (T : Type) [LinearOrder T] (col : List (Option T)) :
    encode_dictionary (decode_dictionary (encode_dictionary col)) =
        encode_dictionary col ∧
      encode_run_length (decode_run_length (encode_run_length col)) =
        encode_run_length col := by
  constructor
  · rw [dict_round_trip]
  · rw [rle_round_trip]

/-- Claim C10: the fixed-size byte-aligned decoder's `_on_get(i)` is an
unchecked subscript; under the precondition `i < _on_size()` it reads exactly
the backing element (the out-of-bounds branch of the total embedding is
unreachable), and no operation rejects an index at or beyond `size()` — the
embedding silently yields the default there. -/
theorem C10_unchecked_get (v : FixedSizeByteAlignedVector) (i : Nat) :
    (∀ h : i < fsba_on_size v, fsba_on_get v i = v.data.get ⟨i, h⟩) ∧
      (fsba_on_size v ≤ i → fsba_on_get v i = 0) := by
  constructor
  · intro h
    rw [fsba_on_get, List.getD_eq_getElem?_getD, List.getElem?_eq_getElem h]
    rfl
  · intro h
    rw [fsba_on_get, List.getD_eq_getElem?_getD, List.getElem?_eq_none h]
    rfl

/-- Witness for C10 at a concrete vector: position 1 is read from the backing
data, position 5 (out of bounds) silently yields the default. -/
theorem C10_unchecked_get_witness :
    fsba_on_get ⟨[5, 7]⟩ 1 = (FixedSizeByteAlignedVector.mk [5, 7]).data.get ⟨1, by decide⟩ ∧
      fsba_on_get ⟨[5, 7]⟩ 5 = 0 :=
  ⟨(C10_unchecked_get ⟨[5, 7]⟩ 1).1 (by decide), (C10_unchecked_get ⟨[5, 7]⟩ 5).2 (by decide)⟩

end Opossum
